import Mathlib

/-!
Verification of the nheko local-cache specification.

The development shallowly embeds the storage/ingestion core described by the
specification (transactional store, codec layer, room state tracker, sync
ingestor, query layer, session store) together with the text-input widget
code (`FilteredTextEdit::submit`, `TextInputWidget::command`) and proves the
specification's testable properties about those embeddings.
-/

set_option maxRecDepth 4096

namespace NhekoCache

/-- Character strings, modelled as lists of characters. -/
abbrev Chars := List Char

/-- Byte strings, modelled as lists of natural numbers. -/
abbrev Bytes := List Nat

/-! ### Association lists

The transactional store's tables and the in-memory keyed maps (state map,
receipts, sessions) are modelled as association lists with first-occurrence
lookup and in-place replacement on insert. -/

section Assoc

variable {κ β : Type} [DecidableEq κ]

/-- Look up the value stored at key `k` (first occurrence). -/
def lookupA : List (κ × β) → κ → Option β
  | [], _ => none
  | p :: t, k => if p.1 = k then some p.2 else lookupA t k

/-- Insert `v` at key `k`, replacing the first existing binding of `k`
in place, or appending a new binding at the end. -/
def insertA : List (κ × β) → κ → β → List (κ × β)
  | [], k, v => [(k, v)]
  | p :: t, k, v => if p.1 = k then (k, v) :: t else p :: insertA t k v

/-- The keys of an association list, in order. -/
def keysA (m : List (κ × β)) : List κ := m.map Prod.fst

/-- Fold a list of key/value pairs into an association list, last write wins. -/
def applyPairs (m : List (κ × β)) (ps : List (κ × β)) : List (κ × β) :=
  ps.foldl (fun a p => insertA a p.1 p.2) m

/-- Number of bindings at key `k`. -/
def countK (m : List (κ × β)) (k : κ) : Nat :=
  (m.filter (fun p => p.1 = k)).length

/-- An association list is well formed when its keys are distinct. -/
def NodupK (m : List (κ × β)) : Prop := (keysA m).Nodup

theorem lookupA_insertA_self (m : List (κ × β)) (k : κ) (v : β) :
    lookupA (insertA m k v) k = some v := by
  induction m with
  | nil => simp [insertA, lookupA]
  | cons p t ih =>
    by_cases h : p.1 = k
    · simp [insertA, h, lookupA]
    · simp [insertA, h, lookupA, ih]

theorem lookupA_insertA_ne (m : List (κ × β)) {k k' : κ} (v : β) (h : k' ≠ k) :
    lookupA (insertA m k v) k' = lookupA m k' := by
  have hkk : ¬(k = k') := Ne.symm h
  induction m with
  | nil => simp [insertA, lookupA, hkk]
  | cons p t ih =>
    by_cases hp : p.1 = k
    · simp [insertA, lookupA, hp, hkk]
    · by_cases hq : p.1 = k'
      · simp [insertA, lookupA, hp, hq, h]
      · simp [insertA, lookupA, hp, hq, ih]

theorem insertA_insertA_same (m : List (κ × β)) (k : κ) (v w : β) :
    insertA (insertA m k v) k w = insertA m k w := by
  induction m with
  | nil => simp [insertA]
  | cons p t ih =>
    by_cases h : p.1 = k
    · simp [insertA, h]
    · simp [insertA, h, ih]

theorem insertA_lookup_self {m : List (κ × β)} {k : κ} {v : β}
    (h : lookupA m k = some v) : insertA m k v = m := by
  induction m with
  | nil => exact Option.noConfusion h
  | cons p t ih =>
    obtain ⟨a, b⟩ := p
    by_cases hp : a = k
    · subst hp
      simp [lookupA] at h
      simp [insertA, h]
    · simp only [lookupA] at h
      rw [if_neg hp] at h
      simp [insertA, hp, ih h]

theorem mem_keysA_insertA_self (m : List (κ × β)) (k : κ) (v : β) :
    k ∈ keysA (insertA m k v) := by
  induction m with
  | nil => simp [insertA, keysA]
  | cons p t ih =>
    by_cases h : p.1 = k
    · simp [insertA, h, keysA]
    · simp only [insertA, h, if_false, keysA, List.map_cons, List.mem_cons]
      exact Or.inr ih

theorem mem_keysA_insertA_of_mem {m : List (κ × β)} {k' : κ} (k : κ) (v : β)
    (h : k' ∈ keysA m) : k' ∈ keysA (insertA m k v) := by
  induction m with
  | nil => simp [keysA] at h
  | cons p t ih =>
    by_cases hp : p.1 = k
    · simp only [keysA, List.map_cons, List.mem_cons] at h
      simp only [insertA, hp, if_true, keysA, List.map_cons, List.mem_cons]
      rcases h with h | h
      · exact Or.inl (hp ▸ h)
      · exact Or.inr h
    · simp only [keysA, List.map_cons, List.mem_cons] at h
      simp only [insertA, hp, if_false, keysA, List.map_cons, List.mem_cons]
      rcases h with h | h
      · exact Or.inl h
      · exact Or.inr (ih h)

theorem insertA_comm_of_mem {m : List (κ × β)} {k k' : κ} (v v' : β)
    (hk : k ∈ keysA m) (hne : k' ≠ k) :
    insertA (insertA m k v) k' v' = insertA (insertA m k' v') k v := by
  have hne' : ¬(k = k') := Ne.symm hne
  induction m with
  | nil => simp [keysA] at hk
  | cons p t ih =>
    by_cases hp : p.1 = k
    · simp [insertA, hp, hne, hne']
    · by_cases hq : p.1 = k'
      · simp [insertA, hp, hq, hne, hne']
      · simp only [keysA, List.map_cons, List.mem_cons] at hk
        rcases hk with hk | hk
        · exact absurd hk.symm hp
        · simp [insertA, hp, hq, ih hk]

theorem applyPairs_nil (m : List (κ × β)) : applyPairs m [] = m := rfl

theorem applyPairs_cons (m : List (κ × β)) (p : κ × β) (ps : List (κ × β)) :
    applyPairs m (p :: ps) = applyPairs (insertA m p.1 p.2) ps := rfl

theorem applyPairs_append (m : List (κ × β)) (ps qs : List (κ × β)) :
    applyPairs m (ps ++ qs) = applyPairs (applyPairs m ps) qs := by
  simp [applyPairs, List.foldl_append]

theorem lookupA_applyPairs_of_not_mem {m : List (κ × β)} {ps : List (κ × β)} {k : κ}
    (h : k ∉ keysA ps) : lookupA (applyPairs m ps) k = lookupA m k := by
  induction ps generalizing m with
  | nil => rfl
  | cons p t ih =>
    simp only [keysA, List.map_cons, List.mem_cons, not_or] at h
    rw [applyPairs_cons, ih (by simpa [keysA] using h.2),
      lookupA_insertA_ne _ _ (Ne.symm (fun hh => h.1 hh.symm))]

theorem mem_keysA_applyPairs_of_mem {m : List (κ × β)} {k : κ}
    (ps : List (κ × β)) (h : k ∈ keysA m) : k ∈ keysA (applyPairs m ps) := by
  induction ps generalizing m with
  | nil => exact h
  | cons p t ih => exact ih (mem_keysA_insertA_of_mem _ _ h)

theorem mem_keysA_applyPairs_of_mem_pairs {m : List (κ × β)} {k : κ}
    {ps : List (κ × β)} (h : k ∈ keysA ps) : k ∈ keysA (applyPairs m ps) := by
  induction ps generalizing m with
  | nil => simp [keysA] at h
  | cons p t ih =>
    simp only [keysA, List.map_cons, List.mem_cons] at h
    rcases h with h | h
    · rw [applyPairs_cons]
      exact mem_keysA_applyPairs_of_mem _ (h ▸ mem_keysA_insertA_self _ _ _)
    · exact ih h

theorem applyPairs_insertA_of_mem {ps : List (κ × β)} {k : κ}
    (hps : k ∈ keysA ps) :
    ∀ (m : List (κ × β)) (v : β), k ∈ keysA m →
      applyPairs (insertA m k v) ps = applyPairs m ps := by
  induction ps with
  | nil => intro m v _; simp [keysA] at hps
  | cons p t ih =>
    intro m v hm
    by_cases hp : p.1 = k
    · rw [applyPairs_cons, hp, insertA_insertA_same, applyPairs_cons, hp]
    · simp only [keysA, List.map_cons, List.mem_cons] at hps
      rcases hps with hps | hps
      · exact absurd hps.symm hp
      · rw [applyPairs_cons, insertA_comm_of_mem _ _ hm hp, applyPairs_cons]
        exact ih hps _ _ (mem_keysA_insertA_of_mem _ _ hm)

/-- Re-applying the same sequence of keyed writes is a no-op: the core
last-write-wins idempotence fact for state maps and receipts. -/
theorem applyPairs_idem (m ps : List (κ × β)) :
    applyPairs (applyPairs m ps) ps = applyPairs m ps := by
  induction ps generalizing m with
  | nil => rfl
  | cons p t ih =>
    rw [applyPairs_cons, applyPairs_cons]
    by_cases hk : p.1 ∈ keysA t
    · rw [applyPairs_insertA_of_mem hk _ _
        (mem_keysA_applyPairs_of_mem _ (mem_keysA_insertA_self _ _ _))]
      exact ih _
    · rw [insertA_lookup_self
        (by rw [lookupA_applyPairs_of_not_mem hk, lookupA_insertA_self])]
      exact ih _

theorem keysA_insertA_of_mem {m : List (κ × β)} {k : κ} (v : β)
    (h : k ∈ keysA m) : keysA (insertA m k v) = keysA m := by
  induction m with
  | nil => simp [keysA] at h
  | cons p t ih =>
    by_cases hp : p.1 = k
    · simp [insertA, hp, keysA]
    · simp only [keysA, List.map_cons, List.mem_cons] at h
      rcases h with h | h
      · exact absurd h.symm hp
      · simp only [insertA, hp, if_false, keysA, List.map_cons, List.cons.injEq, true_and]
        exact ih h

theorem keysA_insertA_of_not_mem {m : List (κ × β)} {k : κ} (v : β)
    (h : k ∉ keysA m) : keysA (insertA m k v) = keysA m ++ [k] := by
  induction m with
  | nil => simp [insertA, keysA]
  | cons p t ih =>
    simp only [keysA, List.map_cons, List.mem_cons, not_or] at h
    simp only [insertA, Ne.symm h.1, if_false, keysA, List.map_cons, List.cons_append,
      List.cons.injEq, true_and]
    exact ih (by simpa [keysA] using h.2)

theorem nodupK_insertA {m : List (κ × β)} (k : κ) (v : β)
    (h : NodupK m) : NodupK (insertA m k v) := by
  by_cases hk : k ∈ keysA m
  · unfold NodupK
    rw [keysA_insertA_of_mem _ hk]
    exact h
  · unfold NodupK
    rw [keysA_insertA_of_not_mem _ hk]
    simpa [List.nodup_append] using ⟨h, hk⟩

theorem countK_eq_zero_of_not_mem {m : List (κ × β)} {k : κ}
    (h : k ∉ keysA m) : countK m k = 0 := by
  induction m with
  | nil => rfl
  | cons p t ih =>
    simp only [keysA, List.map_cons, List.mem_cons, not_or] at h
    simp only [countK, List.filter_cons]
    rw [if_neg (by simpa using Ne.symm h.1)]
    exact ih (by simpa [keysA] using h.2)

theorem countK_insertA_of_nodup {m : List (κ × β)} (k : κ) (v : β)
    (h : NodupK m) : countK (insertA m k v) k = 1 := by
  induction m with
  | nil => simp [insertA, countK]
  | cons p t ih =>
    by_cases hp : p.1 = k
    · simp only [insertA, hp, if_pos rfl, countK, List.filter_cons]
      rw [if_pos (by simp)]
      have hnt : k ∉ keysA t := by
        unfold NodupK at h
        simp only [keysA, List.map_cons, List.nodup_cons] at h
        exact hp ▸ h.1
      simpa [countK] using countK_eq_zero_of_not_mem hnt
    · have ht : NodupK t := by
        unfold NodupK at h
        simp only [keysA, List.map_cons, List.nodup_cons] at h
        exact h.2
      simp only [insertA, hp, if_false, countK, List.filter_cons]
      rw [if_neg (by simp [hp])]
      exact ih ht

end Assoc

/-! ### Data model and Sync Ingestor

Modelled from the spec: the cache/storage engine (Cache) is not part of the
source tree here, only its callers are, so the Sync Ingestor (§4.4), the data
model (§3) and the Room State Tracker fold (§4.3) are modelled from the
specification's words. -/

/-- Modelled from the spec: an event (spec §3) with protocol-assigned ID,
sender, type, optional state key and opaque content. -/
structure Event where
  id : Chars
  sender : Chars
  type : Chars
  stateKey : Option Chars
  content : Chars
deriving DecidableEq

/-- Modelled from the spec: one room's part of a sync batch — new timeline
events in arrival order, state-event deltas, and the gap/backfill information
of a "limited" window (spec §4.4 step 1, §6). -/
structure RoomDelta where
  roomId : Chars
  timelineEvents : List Event
  stateEvents : List Event
  limited : Bool
  prevBatchToken : Option Chars
deriving DecidableEq

/-- Modelled from the spec: a read receipt (user, room, event-ID); only the
most recent receipt per user per room is retained (spec §3). -/
structure Receipt where
  user : Chars
  room : Chars
  eventId : Chars
deriving DecidableEq

/-- Modelled from the spec: a sync batch as consumed by `applySyncBatch`
(spec §6): per-room timeline/state deltas, receipts, next sync token. -/
structure SyncBatch where
  rooms : List RoomDelta
  receipts : List Receipt
  nextSyncToken : Chars
deriving DecidableEq

/-- Modelled from the spec: the per-room persisted record (spec §3) —
ordered timeline, current state map keyed by (type, state key), receipts
per user, pagination token, notification counters. -/
@[ext]
structure RoomData where
  timeline : List Event
  stateMap : List ((Chars × Chars) × Event)
  receipts : List (Chars × Chars)
  prevToken : Option Chars
  notifyTotal : Nat
  notifyHighlight : Nat
deriving DecidableEq

/-- Modelled from the spec: the whole store — a map from room ID to room
record plus the next-sync token. -/
@[ext]
structure Store where
  rooms : Chars → RoomData
  syncToken : Option Chars

/-- The empty room record created on first contact with a room. -/
def emptyRoom : RoomData := ⟨[], [], [], none, 0, 0⟩

/-- The store before any sync batch has been applied. -/
def initStore : Store := ⟨fun _ => emptyRoom, none⟩

/-- Does the timeline already contain an event with this ID? -/
def containsId (tl : List Event) (i : Chars) : Bool :=
  tl.any fun e => e.id = i

/-- Append the events of a batch to a timeline in arrival order, skipping
any whose ID is already stored (re-insertion of an already-stored ID is a
no-op, spec §4.4). -/
def addNew : List Event → List Event → List Event
  | tl, [] => tl
  | tl, e :: es => if containsId tl e.id then addNew tl es else addNew (tl ++ [e]) es

/-- Keep the first defined pagination token (tokens are advanced only once
per gap; a present token is kept). -/
def tokOr : Option Chars → Option Chars → Option Chars
  | some t, _ => some t
  | none, o => o

/-- The backfill token recorded for a limited (gappy) batch window. -/
def gapTok (d : RoomDelta) : Option Chars :=
  if d.limited then d.prevBatchToken else none

/-- The (type, state-key) slot a state event occupies (spec §4.3). -/
def stateKeyOf (e : Event) : Chars × Chars := (e.type, e.stateKey.getD [])

/-- A state event as a keyed write into the room state map. -/
def statePair (e : Event) : (Chars × Chars) × Event := (stateKeyOf e, e)

/-- Modelled from the spec: apply one room's delta (spec §4.4 steps 1, 2, 4,
5): dedup-append timeline events, fold state deltas last-write-wins, keep
the pagination token once set, bump notification counters for newly
ingested events matching the push-rule predicate `rules`. -/
def applyRoomDelta (rules : Event → Bool) (r : RoomData) (d : RoomDelta) : RoomData :=
  let tl := addNew r.timeline d.timelineEvents
  { timeline := tl
    stateMap := applyPairs r.stateMap (d.stateEvents.map statePair)
    receipts := r.receipts
    prevToken := tokOr r.prevToken (gapTok d)
    notifyTotal := r.notifyTotal + (tl.length - r.timeline.length)
    notifyHighlight := r.notifyHighlight + ((tl.drop r.timeline.length).filter rules).length }

/-- Update one room of the room map. -/
def updF (f : Chars → RoomData) (k : Chars) (g : RoomData → RoomData) : Chars → RoomData :=
  fun k' => if k' = k then g (f k) else f k'

/-- One room delta as a keyed command on the room map. -/
def deltaCmd (rules : Event → Bool) (d : RoomDelta) : Chars × (RoomData → RoomData) :=
  (d.roomId, fun r => applyRoomDelta rules r d)

/-- One receipt as a keyed command on the room map (last write wins per
user, spec §4.4 step 3). -/
def receiptCmd (rc : Receipt) : Chars × (RoomData → RoomData) :=
  (rc.room, fun r => { r with receipts := insertA r.receipts rc.user rc.eventId })

/-- The whole batch as an ordered script of keyed commands: first the
per-room deltas, then the receipts. -/
def batchScript (rules : Event → Bool) (b : SyncBatch) :
    List (Chars × (RoomData → RoomData)) :=
  b.rooms.map (deltaCmd rules) ++ b.receipts.map receiptCmd

/-- Run a command script over the room map. -/
def runScriptF (f : Chars → RoomData) (sc : List (Chars × (RoomData → RoomData))) :
    Chars → RoomData :=
  sc.foldl (fun f c => updF f c.1 c.2) f

/-- Modelled from the spec: `applySyncBatch` (spec §4.4, §6) applies one
server batch — all room deltas then all receipts — and records the next
sync token.  The whole batch is one atomic state transition, mirroring the
one-transaction-per-batch discipline. -/
def applySyncBatch (rules : Event → Bool) (s : Store) (b : SyncBatch) : Store :=
  { rooms := runScriptF s.rooms (batchScript rules b)
    syncToken := some b.nextSyncToken }

/-- Apply a list of room deltas to one room record in order. -/
def applyDeltas (rules : Event → Bool) (r : RoomData) (ds : List RoomDelta) : RoomData :=
  ds.foldl (fun r d => applyRoomDelta rules r d) r

/-- All timeline events carried by a list of deltas, in delivery order. -/
def flatTL : List RoomDelta → List Event
  | [] => []
  | d :: ds => d.timelineEvents ++ flatTL ds

/-- All state-event writes carried by a list of deltas, in delivery order. -/
def flatSP : List RoomDelta → List ((Chars × Chars) × Event)
  | [] => []
  | d :: ds => d.stateEvents.map statePair ++ flatSP ds

/-- Fold the pagination-token updates of a list of deltas. -/
def tokFold (t : Option Chars) (ds : List RoomDelta) : Option Chars :=
  ds.foldl (fun t d => tokOr t (gapTok d)) t


/-! ### Timeline, token and delta-chain lemmas -/

theorem containsId_append_left {tl : List Event} {x : Chars} (u : List Event)
    (h : containsId tl x = true) : containsId (tl ++ u) x = true := by
  simp only [containsId, List.any_append, Bool.or_eq_true]
  exact Or.inl h

theorem addNew_append (a b tl : List Event) :
    addNew tl (a ++ b) = addNew (addNew tl a) b := by
  induction a generalizing tl with
  | nil => rfl
  | cons e t ih =>
    by_cases h : containsId tl e.id
    · simp only [List.cons_append, addNew, h, if_true]
      exact ih tl
    · simp only [List.cons_append, addNew, h, if_false]
      exact ih (tl ++ [e])

theorem containsId_addNew_mono {tl : List Event} {x : Chars} (es : List Event)
    (h : containsId tl x = true) : containsId (addNew tl es) x = true := by
  induction es generalizing tl with
  | nil => exact h
  | cons e t ih =>
    by_cases he : containsId tl e.id
    · simp only [addNew, he, if_true]
      exact ih h
    · simp only [addNew, he, if_false]
      exact ih (containsId_append_left _ h)

theorem containsId_addNew_of_mem {es : List Event} {e : Event}
    (hm : e ∈ es) : ∀ tl, containsId (addNew tl es) e.id = true := by
  induction es with
  | nil => cases hm
  | cons f t ih =>
    intro tl
    rcases List.mem_cons.mp hm with hm | hm
    · subst hm
      by_cases he : containsId tl e.id
      · simp only [addNew, he, if_true]
        exact containsId_addNew_mono _ he
      · simp only [addNew, he, if_false]
        refine containsId_addNew_mono _ ?_
        simp [containsId]
    · by_cases he : containsId tl f.id
      · simp only [addNew, he, if_true]
        exact ih hm tl
      · simp only [addNew, he, if_false]
        exact ih hm (tl ++ [f])

theorem addNew_of_all {tl es : List Event}
    (h : ∀ e ∈ es, containsId tl e.id = true) : addNew tl es = tl := by
  induction es with
  | nil => rfl
  | cons e t ih =>
    simp only [addNew, h e (List.mem_cons_self e t), if_true]
    exact ih fun f hf => h f (List.mem_cons_of_mem _ hf)

theorem addNew_prefix (es : List Event) : ∀ tl, ∃ u, addNew tl es = tl ++ u := by
  induction es with
  | nil => exact fun tl => ⟨[], by simp [addNew]⟩
  | cons e t ih =>
    intro tl
    by_cases he : containsId tl e.id
    · simp only [addNew, he, if_true]
      exact ih tl
    · obtain ⟨u, hu⟩ := ih (tl ++ [e])
      refine ⟨[e] ++ u, ?_⟩
      have hstep : addNew tl (e :: t) = addNew (tl ++ [e]) t := by
        simp [addNew, he]
      rw [hstep, hu, List.append_assoc]

theorem tokFold_some (x : Chars) (ds : List RoomDelta) :
    tokFold (some x) ds = some x := by
  induction ds with
  | nil => rfl
  | cons d t ih => simpa [tokFold, tokOr] using ih

theorem tokFold_none_of {t : Option Chars} {ds : List RoomDelta}
    (h : tokFold t ds = none) : t = none := by
  induction ds generalizing t with
  | nil => exact h
  | cons d u ih =>
    have := ih (t := tokOr t (gapTok d)) h
    cases t with
    | none => rfl
    | some x => simp [tokOr] at this

theorem tokFold_idem (t : Option Chars) (ds : List RoomDelta) :
    tokFold (tokFold t ds) ds = tokFold t ds := by
  cases h : tokFold t ds with
  | some x => exact tokFold_some x ds
  | none =>
    have ht : t = none := tokFold_none_of h
    subst ht
    rw [h]

theorem receipts_applyDeltas (rules : Event → Bool) (r : RoomData)
    (ds : List RoomDelta) : (applyDeltas rules r ds).receipts = r.receipts := by
  induction ds generalizing r with
  | nil => rfl
  | cons d t ih => simpa [applyDeltas, applyRoomDelta] using ih (applyRoomDelta rules r d)

theorem timeline_applyDeltas (rules : Event → Bool) (r : RoomData)
    (ds : List RoomDelta) :
    (applyDeltas rules r ds).timeline = addNew r.timeline (flatTL ds) := by
  induction ds generalizing r with
  | nil => rfl
  | cons d t ih =>
    rw [flatTL, addNew_append]
    simpa [applyDeltas, applyRoomDelta] using ih (applyRoomDelta rules r d)

theorem stateMap_applyDeltas (rules : Event → Bool) (r : RoomData)
    (ds : List RoomDelta) :
    (applyDeltas rules r ds).stateMap = applyPairs r.stateMap (flatSP ds) := by
  induction ds generalizing r with
  | nil => rfl
  | cons d t ih =>
    rw [flatSP, applyPairs_append]
    simpa [applyDeltas, applyRoomDelta] using ih (applyRoomDelta rules r d)

theorem prevToken_applyDeltas (rules : Event → Bool) (r : RoomData)
    (ds : List RoomDelta) :
    (applyDeltas rules r ds).prevToken = tokFold r.prevToken ds := by
  induction ds generalizing r with
  | nil => rfl
  | cons d t ih => simpa [applyDeltas, applyRoomDelta, tokFold] using ih (applyRoomDelta rules r d)

theorem flatTL_cons (d : RoomDelta) (ds : List RoomDelta) :
    flatTL (d :: ds) = d.timelineEvents ++ flatTL ds := rfl

theorem flatSP_cons (d : RoomDelta) (ds : List RoomDelta) :
    flatSP (d :: ds) = d.stateEvents.map statePair ++ flatSP ds := rfl

theorem tokFold_cons (t : Option Chars) (d : RoomDelta) (ds : List RoomDelta) :
    tokFold t (d :: ds) = tokFold (tokOr t (gapTok d)) ds := rfl

theorem applyDeltas_cons (rules : Event → Bool) (r : RoomData) (d : RoomDelta)
    (ds : List RoomDelta) :
    applyDeltas rules r (d :: ds) = applyDeltas rules (applyRoomDelta rules r d) ds := rfl

/-- Applying a delta chain whose timeline events are already stored and whose
token updates are already absorbed only refolds the state map. -/
theorem applyDeltas_state_only (rules : Event → Bool) (R : RoomData) :
    ∀ (ds : List RoomDelta) (m : List ((Chars × Chars) × Event)),
      (∀ e ∈ flatTL ds, containsId R.timeline e.id = true) →
      tokFold R.prevToken ds = R.prevToken →
      applyDeltas rules { R with stateMap := m } ds
        = { R with stateMap := applyPairs m (flatSP ds) } := by
  intro ds
  induction ds with
  | nil =>
    intro m h htok
    simp [applyDeltas, applyPairs_nil, flatSP]
  | cons d t ih =>
    intro m h htok
    have hcov : ∀ e ∈ d.timelineEvents, containsId R.timeline e.id = true := by
      intro e he
      exact h e (by rw [flatTL_cons]; exact List.mem_append.mpr (Or.inl he))
    have htl : addNew R.timeline d.timelineEvents = R.timeline := addNew_of_all hcov
    have htok1 : tokOr R.prevToken (gapTok d) = R.prevToken := by
      cases hR : R.prevToken with
      | some x => rfl
      | none =>
        rw [hR, tokFold_cons] at htok
        exact tokFold_none_of htok
    have htok2 : tokFold R.prevToken t = R.prevToken := by
      cases hR : R.prevToken with
      | some x => exact tokFold_some x t
      | none =>
        rw [hR, tokFold_cons] at htok
        have hg := tokFold_none_of htok
        rw [hg] at htok
        exact htok
    have hstep : applyRoomDelta rules { R with stateMap := m } d
        = { R with stateMap := applyPairs m (d.stateEvents.map statePair) } := by
      simp [applyRoomDelta, htl, htok1, Nat.sub_self, List.drop_length]
    rw [applyDeltas_cons, hstep,
      ih _ (fun e he => h e (by rw [flatTL_cons]; exact List.mem_append.mpr (Or.inr he))) htok2,
      flatSP_cons, applyPairs_append]

/-- A room record that already contains a chain's events, has its token
settled and its state map refolded is a fixed point of the chain. -/
theorem applyDeltas_fixpoint (rules : Event → Bool) (R : RoomData) (ds : List RoomDelta)
    (hcov : ∀ e ∈ flatTL ds, containsId R.timeline e.id = true)
    (htok : tokFold R.prevToken ds = R.prevToken)
    (hsm : applyPairs R.stateMap (flatSP ds) = R.stateMap) :
    applyDeltas rules R ds = R := by
  have h := applyDeltas_state_only rules R ds R.stateMap hcov htok
  rw [hsm] at h
  calc applyDeltas rules R ds
      = applyDeltas rules { R with stateMap := R.stateMap } ds := rfl
    _ = { R with stateMap := R.stateMap } := h
    _ = R := rfl

/-! ### Script machinery for whole-batch application -/

/-- Apply a list of room transformations in order. -/
def applyFns (fs : List (RoomData → RoomData)) (r : RoomData) : RoomData :=
  fs.foldl (fun r f => f r) r

/-- The commands of a script that target room `k`, in order. -/
def cmdsFor (k : Chars) (sc : List (Chars × (RoomData → RoomData))) :
    List (RoomData → RoomData) :=
  (sc.filter fun c => c.1 = k).map Prod.snd

theorem applyFns_cons (f : RoomData → RoomData) (fs : List (RoomData → RoomData))
    (r : RoomData) : applyFns (f :: fs) r = applyFns fs (f r) := rfl

theorem applyFns_append (a b : List (RoomData → RoomData)) (r : RoomData) :
    applyFns (a ++ b) r = applyFns b (applyFns a r) := by
  simp [applyFns, List.foldl_append]

theorem runScriptF_cons (f : Chars → RoomData) (c : Chars × (RoomData → RoomData))
    (sc : List (Chars × (RoomData → RoomData))) :
    runScriptF f (c :: sc) = runScriptF (updF f c.1 c.2) sc := rfl

/-- Running a script affects each room exactly through the commands that
target it, in script order. -/
theorem runScriptF_apply (f : Chars → RoomData)
    (sc : List (Chars × (RoomData → RoomData))) (k : Chars) :
    runScriptF f sc k = applyFns (cmdsFor k sc) (f k) := by
  induction sc generalizing f with
  | nil => rfl
  | cons c t ih =>
    rw [runScriptF_cons, ih]
    by_cases h : c.1 = k
    · have h1 : cmdsFor k (c :: t) = c.2 :: cmdsFor k t := by
        simp [cmdsFor, List.filter_cons, h]
      have h2 : updF f c.1 c.2 k = c.2 (f k) := by
        simp [updF, h]
      rw [h1, h2, applyFns_cons]
    · have h1 : cmdsFor k (c :: t) = cmdsFor k t := by
        simp [cmdsFor, List.filter_cons, h]
      have h2 : updF f c.1 c.2 k = f k := by
        simp [updF, Ne.symm h]
      rw [h1, h2]

theorem cmdsFor_append (k : Chars) (a b : List (Chars × (RoomData → RoomData))) :
    cmdsFor k (a ++ b) = cmdsFor k a ++ cmdsFor k b := by
  simp [cmdsFor, List.filter_append]

theorem cmdsFor_delta (rules : Event → Bool) (k : Chars) (ds : List RoomDelta) :
    cmdsFor k (ds.map (deltaCmd rules))
      = (ds.filter fun d => d.roomId = k).map fun d => fun r => applyRoomDelta rules r d := by
  induction ds with
  | nil => rfl
  | cons d t ih =>
    by_cases h : d.roomId = k <;>
      simpa [cmdsFor, deltaCmd, List.filter_cons, h] using ih

theorem cmdsFor_receipt (k : Chars) (rcs : List Receipt) :
    cmdsFor k (rcs.map receiptCmd)
      = (rcs.filter fun rc => rc.room = k).map
          fun rc => fun r => { r with receipts := insertA r.receipts rc.user rc.eventId } := by
  induction rcs with
  | nil => rfl
  | cons rc t ih =>
    by_cases h : rc.room = k <;>
      simpa [cmdsFor, receiptCmd, List.filter_cons, h] using ih

theorem applyFns_deltaFns (rules : Event → Bool) (ds : List RoomDelta) (r : RoomData) :
    applyFns (ds.map fun d => fun r => applyRoomDelta rules r d) r
      = applyDeltas rules r ds := by
  simp [applyFns, applyDeltas, List.foldl_map]

theorem applyFns_receiptFns (rcs : List Receipt) (r : RoomData) :
    applyFns (rcs.map fun rc => fun r =>
        { r with receipts := insertA r.receipts rc.user rc.eventId }) r
      = { r with receipts := applyPairs r.receipts (rcs.map fun rc => (rc.user, rc.eventId)) } := by
  induction rcs generalizing r with
  | nil => rfl
  | cons rc t ih =>
    rw [List.map_cons, applyFns_cons, ih]
    simp [applyPairs_cons]

/-- Claim C1: applying the same sync batch twice via `applySyncBatch`
produces exactly the same final store state as applying it once —
`apply(apply(S, B), B) = apply(S, B)` for every store state `S` (so in
particular every reachable one), every batch `B` and every push-rule
predicate. -/
theorem claim_C1_applySyncBatch_idem (rules : Event → Bool) (s : Store) (b : SyncBatch) :
    applySyncBatch rules (applySyncBatch rules s b) b = applySyncBatch rules s b := by
  unfold applySyncBatch
  simp only [Store.mk.injEq, and_true]
  funext k
  rw [runScriptF_apply, runScriptF_apply]
  have hsplit : cmdsFor k (batchScript rules b)
      = ((b.rooms.filter fun d => d.roomId = k).map fun d => fun r => applyRoomDelta rules r d)
        ++ ((b.receipts.filter fun rc => rc.room = k).map
            fun rc => fun r => { r with receipts := insertA r.receipts rc.user rc.eventId }) := by
    rw [batchScript, cmdsFor_append, cmdsFor_delta, cmdsFor_receipt]
  rw [hsplit]
  set ds := b.rooms.filter fun d => d.roomId = k with hds
  set rcs := b.receipts.filter fun rc => rc.room = k with hrcs
  simp only [applyFns_append, applyFns_deltaFns, applyFns_receiptFns]
  set r1 := applyDeltas rules (s.rooms k) ds with hr1
  set v : RoomData :=
    { r1 with receipts := applyPairs r1.receipts (rcs.map fun rc => (rc.user, rc.eventId)) }
    with hv
  have hdv : applyDeltas rules v ds = v := by
    refine applyDeltas_fixpoint rules v ds ?_ ?_ ?_
    · intro e he
      have htlv : v.timeline = addNew (s.rooms k).timeline (flatTL ds) := by
        rw [hv]
        show r1.timeline = _
        rw [hr1, timeline_applyDeltas]
      rw [htlv]
      exact containsId_addNew_of_mem he _
    · have htv : v.prevToken = tokFold (s.rooms k).prevToken ds := by
        rw [hv]
        show r1.prevToken = _
        rw [hr1, prevToken_applyDeltas]
      rw [htv]
      exact tokFold_idem _ _
    · have hsv : v.stateMap = applyPairs (s.rooms k).stateMap (flatSP ds) := by
        rw [hv]
        show r1.stateMap = _
        rw [hr1, stateMap_applyDeltas]
      rw [hsv]
      exact applyPairs_idem _ _
  rw [hdv]
  have hrc : applyPairs v.receipts (rcs.map fun rc => (rc.user, rc.eventId)) = v.receipts := by
    have : v.receipts = applyPairs r1.receipts (rcs.map fun rc => (rc.user, rc.eventId)) := rfl
    rw [this]
    exact applyPairs_idem _ _
  rw [hrc]

/-! ### Transactional store (spec §4.1)

Modelled from the spec: the embedded transactional key-value engine is not
part of the source tree here; its contract (buffered write transactions,
atomic all-or-nothing commit, `StoreIOError` on disk failure) is modelled
from the specification's words. -/

/-- A write operation buffered inside a write transaction. -/
inductive WriteOp
  | put (table : Chars) (key : Bytes) (val : Bytes)
  | del (table : Chars) (key : Bytes)
deriving DecidableEq

/-- The on-disk key-value store: one association list keyed by
(table, key). -/
structure KVStore where
  entries : List ((Chars × Bytes) × Bytes)
deriving DecidableEq

/-- Remove the binding of a key, if present (first occurrence). -/
def eraseA {κ β : Type} [DecidableEq κ] : List (κ × β) → κ → List (κ × β)
  | [], _ => []
  | p :: t, k => if p.1 = k then t else p :: eraseA t k

/-- Apply one buffered write to the store contents. -/
def applyOp (kv : KVStore) : WriteOp → KVStore
  | .put table key val => ⟨insertA kv.entries (table, key) val⟩
  | .del table key => ⟨eraseA kv.entries (table, key)⟩

/-- Apply a whole transaction's buffered writes in order. -/
def applyOps (kv : KVStore) (ops : List WriteOp) : KVStore :=
  ops.foldl applyOp kv

/-- Read a key in the last committed snapshot. -/
def getKV (kv : KVStore) (table : Chars) (key : Bytes) : Option Bytes :=
  lookupA kv.entries (table, key)

/-- Modelled from the spec: errors surfaced by the storage layer (spec §7). -/
inductive StoreErr
  | storeIOFailure
deriving DecidableEq

/-- Modelled from the spec: `commit(Txn)` — applies every buffered write at
once, or fails with a `StoreIOError` and leaves prior state intact (spec
§4.1, atomic all-or-nothing). -/
def commitTxn (kv : KVStore) (ops : List WriteOp) (diskOk : Bool) :
    Except StoreErr KVStore :=
  if diskOk then .ok (applyOps kv ops) else .error .storeIOFailure

/-- Modelled from the spec: run one ingestion batch against the store.  The
batch's writes are buffered in a transaction; `crashAt = some i` with
`i < ops.length` simulates a failure mid-batch-apply before commit (the
transaction is lost, nothing reaches the store); otherwise the single
commit either installs all writes or, on `diskOk = false`, fails atomically
leaving the previous state. -/
def runBatchTxn (kv : KVStore) (ops : List WriteOp) (crashAt : Option Nat)
    (diskOk : Bool) : KVStore :=
  match crashAt with
  | some i =>
    if i < ops.length then kv
    else match commitTxn kv ops diskOk with
      | .ok kv' => kv'
      | .error _ => kv
  | none =>
    match commitTxn kv ops diskOk with
    | .ok kv' => kv'
    | .error _ => kv

/-- Claim C2: commit of a write transaction is all-or-nothing — after any
batch run the visible store is either exactly the previous committed state
or exactly the fully applied state (never partial, for any key); a commit
failure (`StoreIOError`) or a simulated crash mid-batch-apply leaves the
previous committed state in place. -/
theorem claim_C2_commit_atomic (kv : KVStore) (ops : List WriteOp)
    (crashAt : Option Nat) (diskOk : Bool) :
    (runBatchTxn kv ops crashAt diskOk = kv ∨
      runBatchTxn kv ops crashAt diskOk = applyOps kv ops)
    ∧ (∀ table key,
        getKV (runBatchTxn kv ops crashAt diskOk) table key = getKV kv table key ∨
        getKV (runBatchTxn kv ops crashAt diskOk) table key
          = getKV (applyOps kv ops) table key)
    ∧ (diskOk = false → runBatchTxn kv ops crashAt diskOk = kv)
    ∧ (∀ i, crashAt = some i → i < ops.length →
        runBatchTxn kv ops crashAt diskOk = kv) := by
  have hmain : runBatchTxn kv ops crashAt diskOk = kv ∨
      runBatchTxn kv ops crashAt diskOk = applyOps kv ops := by
    cases crashAt with
    | some i =>
      by_cases hi : i < ops.length
      · simp [runBatchTxn, hi]
      · cases diskOk with
        | true => simp [runBatchTxn, hi, commitTxn]
        | false => simp [runBatchTxn, hi, commitTxn]
    | none =>
      cases diskOk with
      | true => simp [runBatchTxn, commitTxn]
      | false => simp [runBatchTxn, commitTxn]
  refine ⟨hmain, ?_, ?_, ?_⟩
  · intro table key
    rcases hmain with h | h <;> rw [h]
    · exact Or.inl rfl
    · exact Or.inr rfl
  · intro hdisk
    subst hdisk
    cases crashAt with
    | some i =>
      by_cases hi : i < ops.length
      · simp [runBatchTxn, hi]
      · simp [runBatchTxn, hi, commitTxn]
    | none => simp [runBatchTxn, commitTxn]
  · intro i hc hi
    subst hc
    simp [runBatchTxn, hi]

/-- Witness for C2 at a concrete store, batch, crash point and disk state. -/
theorem claim_C2_witness :
    runBatchTxn ⟨[]⟩ [.put ['t'] [1] [2]] (some 0) true = ⟨[]⟩ :=
  (claim_C2_commit_atomic ⟨[]⟩ [.put ['t'] [1] [2]] (some 0) true).2.2.2 0 rfl
    (by decide)

/-! ### Codec layer (spec §4.2)

Modelled from the spec: the codec layer serialising domain records to byte
strings is not part of the source tree here; it is modelled from the
specification's words with length-prefixed fields, and unknown
forward-incompatible payload fields stored verbatim as an opaque trailing
byte string. -/

/-- Length-prefix encode one byte-string field. -/
def encField (b : Bytes) : Bytes := b.length :: b

/-- Decode one length-prefixed field, returning it and the remaining
input. -/
def decField : Bytes → Option (Bytes × Bytes)
  | [] => none
  | n :: rest => if n ≤ rest.length then some (rest.take n, rest.drop n) else none

/-- Encode one natural-number field. -/
def encNat (n : Nat) : Bytes := [n]

/-- Decode one natural-number field. -/
def decNat : Bytes → Option (Nat × Bytes)
  | [] => none
  | n :: rest => some (n, rest)

theorem decField_encField (b rest : Bytes) :
    decField (encField b ++ rest) = some (b, rest) := by
  simp [encField, decField, List.take_left, List.drop_left]

theorem decNat_encNat (n : Nat) (rest : Bytes) :
    decNat (encNat n ++ rest) = some (n, rest) := rfl

theorem decField_encField_nil (b : Bytes) :
    decField (encField b) = some (b, []) := by
  simpa using decField_encField b []

/-- Modelled from the spec: a stored timeline-event record, with its unknown
forward-incompatible payload fields kept verbatim (spec §4.2). -/
structure EventRecord where
  id : Bytes
  sender : Bytes
  kind : Bytes
  content : Bytes
  unknownFields : Bytes
deriving DecidableEq

/-- Modelled from the spec: a stored receipt record (spec §3). -/
structure ReceiptRecord where
  user : Bytes
  room : Bytes
  eventId : Bytes
  ts : Nat
  unknownFields : Bytes
deriving DecidableEq

/-- Modelled from the spec: a stored encryption-session record — opaque
blob plus versioning (spec §3, §4.6). -/
structure SessionRecord where
  scope : Bytes
  sessionId : Bytes
  blob : Bytes
  version : Nat
  unknownFields : Bytes
deriving DecidableEq

/-- Serialise an event record. -/
def encodeEvent (r : EventRecord) : Bytes :=
  encField r.id ++ (encField r.sender ++ (encField r.kind ++
    (encField r.content ++ encField r.unknownFields)))

/-- Parse an event record; fails on trailing garbage or truncation. -/
def decodeEvent (bs : Bytes) : Option EventRecord :=
  match decField bs with
  | none => none
  | some (i, r1) =>
    match decField r1 with
    | none => none
    | some (s, r2) =>
      match decField r2 with
      | none => none
      | some (k, r3) =>
        match decField r3 with
        | none => none
        | some (c, r4) =>
          match decField r4 with
          | none => none
          | some (u, r5) =>
            match r5 with
            | [] => some ⟨i, s, k, c, u⟩
            | _ :: _ => none

/-- Serialise a receipt record. -/
def encodeReceipt (r : ReceiptRecord) : Bytes :=
  encField r.user ++ (encField r.room ++ (encField r.eventId ++
    (encNat r.ts ++ encField r.unknownFields)))

/-- Parse a receipt record. -/
def decodeReceipt (bs : Bytes) : Option ReceiptRecord :=
  match decField bs with
  | none => none
  | some (u, r1) =>
    match decField r1 with
    | none => none
    | some (ro, r2) =>
      match decField r2 with
      | none => none
      | some (e, r3) =>
        match decNat r3 with
        | none => none
        | some (t, r4) =>
          match decField r4 with
          | none => none
          | some (uf, r5) =>
            match r5 with
            | [] => some ⟨u, ro, e, t, uf⟩
            | _ :: _ => none

/-- Serialise a session record. -/
def encodeSession (r : SessionRecord) : Bytes :=
  encField r.scope ++ (encField r.sessionId ++ (encField r.blob ++
    (encNat r.version ++ encField r.unknownFields)))

/-- Parse a session record. -/
def decodeSession (bs : Bytes) : Option SessionRecord :=
  match decField bs with
  | none => none
  | some (sc, r1) =>
    match decField r1 with
    | none => none
    | some (si, r2) =>
      match decField r2 with
      | none => none
      | some (bl, r3) =>
        match decNat r3 with
        | none => none
        | some (v, r4) =>
          match decField r4 with
          | none => none
          | some (uf, r5) =>
            match r5 with
            | [] => some ⟨sc, si, bl, v, uf⟩
            | _ :: _ => none

/-- Claim C3: encoding and decoding round-trip exactly for every storable
record of every stored entity kind, with unknown forward-incompatible
fields preserved byte-for-byte (they are part of the record and come back
equal). -/
theorem claim_C3_codec_round_trip :
    (∀ r : EventRecord, decodeEvent (encodeEvent r) = some r)
    ∧ (∀ r : ReceiptRecord, decodeReceipt (encodeReceipt r) = some r)
    ∧ (∀ r : SessionRecord, decodeSession (encodeSession r) = some r) := by
  refine ⟨fun r => ?_, fun r => ?_, fun r => ?_⟩
  · rw [encodeEvent, decodeEvent.eq_def]
    simp [decField_encField, decField_encField_nil]
  · rw [encodeReceipt, decodeReceipt.eq_def]
    simp [decField_encField, decField_encField_nil, decNat_encNat]
  · rw [encodeSession, decodeSession.eq_def]
    simp [decField_encField, decField_encField_nil, decNat_encNat]

/-! ### Room State Tracker queries (spec §4.3) -/

/-- The materialised current state map of a room (spec §4.3). -/
def currentState (s : Store) (room : Chars) : List ((Chars × Chars) × Event) :=
  (s.rooms room).stateMap

/-- A batch carrying exactly one room delta made of state events only. -/
def oneDeltaBatch (room : Chars) (stEvents : List Event) : SyncBatch :=
  { rooms := [{ roomId := room, timelineEvents := [], stateEvents := stEvents,
                limited := false, prevBatchToken := none }],
    receipts := [], nextSyncToken := [] }

/-- Claim C4: the Room State Tracker keeps, per room, exactly one state
event per (event type, state key) pair, and the one kept is the latest in
server arrival order: after ingesting `E1` then `E2` for the same
(type, state-key) in server order, `currentState` reflects `E2` only (the
slot maps to `E2`, and on a well-formed prior state the slot has exactly
one binding). -/
theorem claim_C4_state_tracker_last_wins (rules : Event → Bool) (s : Store)
    (room : Chars) (E1 E2 : Event) (_hk : stateKeyOf E1 = stateKeyOf E2) :
    lookupA (currentState (applySyncBatch rules s (oneDeltaBatch room [E1, E2])) room)
        (stateKeyOf E2) = some E2
    ∧ (NodupK (currentState s room) →
        countK (currentState (applySyncBatch rules s (oneDeltaBatch room [E1, E2])) room)
          (stateKeyOf E2) = 1) := by
  have hsm : currentState (applySyncBatch rules s (oneDeltaBatch room [E1, E2])) room
      = insertA (insertA (currentState s room) (stateKeyOf E1) E1) (stateKeyOf E2) E2 := by
    simp [currentState, applySyncBatch, oneDeltaBatch, batchScript, runScriptF, updF,
      deltaCmd, applyRoomDelta, applyPairs, statePair]
  rw [hsm]
  refine ⟨lookupA_insertA_self _ _ _, fun hnod => ?_⟩
  exact countK_insertA_of_nodup _ _ (nodupK_insertA _ _ hnod)

/-- Concrete state events for the C4 witness: same (type, state-key) slot,
different content. -/
def wE1 : Event :=
  { id := ['$','1'], sender := ['@','u'], type := ['t','o','p','i','c'],
    stateKey := some [], content := ['o','l','d'] }

/-- Second concrete state event for the C4 witness. -/
def wE2 : Event :=
  { id := ['$','2'], sender := ['@','u'], type := ['t','o','p','i','c'],
    stateKey := some [], content := ['n','e','w'] }

/-- Witness for C4: ingesting `wE1` then `wE2` into the fresh store leaves
exactly the later event in the slot. -/
theorem claim_C4_witness :
    lookupA (currentState (applySyncBatch (fun _ => false) initStore
        (oneDeltaBatch ['!','r'] [wE1, wE2])) ['!','r']) (stateKeyOf wE2) = some wE2
    ∧ countK (currentState (applySyncBatch (fun _ => false) initStore
        (oneDeltaBatch ['!','r'] [wE1, wE2])) ['!','r']) (stateKeyOf wE2) = 1 := by
  have h := claim_C4_state_tracker_last_wins (fun _ => false) initStore ['!','r']
    wE1 wE2 (by decide)
  exact ⟨h.1, h.2 (by simp [NodupK, currentState, initStore, emptyRoom, keysA])⟩

/-! ### Sync ingestion transaction and the token/durability invariant -/

/-- Modelled from the spec: one sync cycle — the batch is applied inside
one store transaction; if the commit fails the whole batch is discarded
atomically and the store keeps its previous state (spec §4.4). -/
def applySyncBatchTxn (rules : Event → Bool) (s : Store) (b : SyncBatch)
    (commitOk : Bool) : Store :=
  if commitOk then applySyncBatch rules s b else s

theorem cmdsFor_batchScript (rules : Event → Bool) (b : SyncBatch) (k : Chars) :
    cmdsFor k (batchScript rules b)
      = ((b.rooms.filter fun d => d.roomId = k).map fun d => fun r => applyRoomDelta rules r d)
        ++ ((b.receipts.filter fun rc => rc.room = k).map
            fun rc => fun r => { r with receipts := insertA r.receipts rc.user rc.eventId }) := by
  rw [batchScript, cmdsFor_append, cmdsFor_delta, cmdsFor_receipt]

/-- The timeline of a room after a batch is the dedup-append of all the
batch's events for that room. -/
theorem timeline_applySyncBatch (rules : Event → Bool) (s : Store) (b : SyncBatch)
    (k : Chars) :
    ((applySyncBatch rules s b).rooms k).timeline
      = addNew (s.rooms k).timeline (flatTL (b.rooms.filter fun d => d.roomId = k)) := by
  show (runScriptF s.rooms (batchScript rules b) k).timeline = _
  rw [runScriptF_apply, cmdsFor_batchScript, applyFns_append, applyFns_deltaFns,
    applyFns_receiptFns]
  show (applyDeltas rules (s.rooms k) (b.rooms.filter fun d => d.roomId = k)).timeline = _
  rw [timeline_applyDeltas]

theorem mem_flatTL {ds : List RoomDelta} {d : RoomDelta} {e : Event}
    (hd : d ∈ ds) (he : e ∈ d.timelineEvents) : e ∈ flatTL ds := by
  induction ds with
  | nil => cases hd
  | cons d0 t ih =>
    rw [flatTL_cons]
    rcases List.mem_cons.mp hd with h | h
    · exact List.mem_append.mpr (Or.inl (h ▸ he))
    · exact List.mem_append.mpr (Or.inr (ih h))

/-- Claim C5: pagination tokens are never advanced before the
corresponding timeline events are durably committed — across any
ingestion step (committed or aborted), if a room's pagination token
changed then every timeline event the batch delivered for that room is in
the room's stored timeline.  An aborted commit changes neither tokens nor
events, so the implication holds in every reachable state of the
ingestion machine. -/
theorem claim_C5_token_implies_durability (rules : Event → Bool) (s : Store)
    (b : SyncBatch) (commitOk : Bool) (d : RoomDelta) (hd : d ∈ b.rooms) :
    ((applySyncBatchTxn rules s b commitOk).rooms d.roomId).prevToken
        ≠ (s.rooms d.roomId).prevToken →
    ∀ e ∈ d.timelineEvents,
      containsId ((applySyncBatchTxn rules s b commitOk).rooms d.roomId).timeline e.id
        = true := by
  cases commitOk with
  | false => exact fun hne => absurd rfl hne
  | true =>
    intro _ e he
    show containsId ((applySyncBatch rules s b).rooms d.roomId).timeline e.id = true
    rw [timeline_applySyncBatch]
    refine containsId_addNew_of_mem (mem_flatTL ?_ he) _
    exact List.mem_filter.mpr ⟨hd, by simp⟩

/-- Concrete timeline event for the C5 witness. -/
def wEvt : Event :=
  { id := ['$','m'], sender := ['@','u'], type := ['m','s','g'],
    stateKey := none, content := ['h','i'] }

/-- Concrete limited room delta for the C5 witness. -/
def wDelta : RoomDelta :=
  { roomId := ['!','r'], timelineEvents := [wEvt], stateEvents := [],
    limited := true, prevBatchToken := some ['p','0'] }

/-- Concrete batch for the C5 witness. -/
def wBatch : SyncBatch :=
  { rooms := [wDelta], receipts := [], nextSyncToken := ['s','1'] }

/-- Witness for C5: a committed batch that advances the token has its
events durably stored. -/
theorem claim_C5_witness :
    containsId ((applySyncBatchTxn (fun _ => false) initStore wBatch true).rooms
      wDelta.roomId).timeline wEvt.id = true := by
  have h := claim_C5_token_implies_durability (fun _ => false) initStore wBatch true
    wDelta (by simp [wBatch])
  exact h (by decide) wEvt (by simp [wDelta])

/-! ### Query layer: timeline slices and gaps (spec §4.5)

Modelled from the spec: the query layer is not part of the source tree
here; `timelineSlice` and the gap/`NeedsBackfill` control signal are
modelled from the specification's words.  A room timeline is an ordered
sequence (oldest first) of stored events interleaved with known gaps, each
gap carrying the backfill token to request from the network layer. -/

/-- An item of the known timeline: a stored event or a known gap with its
backfill token. -/
inductive TimelineItem
  | ev (e : Event)
  | gap (tok : Chars)
deriving DecidableEq

/-- Is this item a stored event (not a gap)? -/
def isEv : TimelineItem → Bool
  | .ev _ => true
  | .gap _ => false

/-- The events of an item sequence, in order. -/
def eventsOf (items : List TimelineItem) : List Event :=
  items.filterMap fun x => match x with | .ev e => some e | .gap _ => none

/-- Result of a timeline slice: either events, or the `NeedsBackfill`
control signal carrying the token to request (spec §4.5, §7). -/
inductive SliceRes
  | slice (es : List Event)
  | needsBackfill (tok : Chars)
deriving DecidableEq

/-- Walk the items in reading order collecting up to `limit` events; if a
known gap is reached before the limit is exhausted, signal `NeedsBackfill`
with that gap's token instead of silently truncating. -/
def sliceFrom : List TimelineItem → Nat → SliceRes
  | _, 0 => .slice []
  | [], _ + 1 => .slice []
  | .ev e :: rest, n + 1 =>
    match sliceFrom rest n with
    | .slice es => .slice (e :: es)
    | .needsBackfill t => .needsBackfill t
  | .gap t :: _, _ + 1 => .needsBackfill t

/-- The anchor of a slice request: the latest position or a stored event. -/
inductive Anchor
  | latest
  | fromEvent (id : Chars)
deriving DecidableEq

/-- Slice direction. -/
inductive Dir
  | backward
  | forward
deriving DecidableEq

/-- Position of the anchor event in the item sequence. -/
def findAnchorIdx (items : List TimelineItem) (id : Chars) : Option Nat :=
  items.findIdx? fun x => match x with | .ev e => e.id = id | .gap _ => false

/-- Modelled from the spec: `timelineSlice(room, anchor, direction, limit)`
(spec §4.5) — up to `limit` events moving backward (older) or forward
(newer) from the anchor; `none` when the anchor event is unknown. -/
def timelineSlice (items : List TimelineItem) (a : Anchor) (dir : Dir)
    (limit : Nat) : Option SliceRes :=
  match a, dir with
  | .latest, .backward => some (sliceFrom items.reverse limit)
  | .latest, .forward => some (.slice [])
  | .fromEvent id, .backward =>
    match findAnchorIdx items id with
    | none => none
    | some i => some (sliceFrom (items.take i).reverse limit)
  | .fromEvent id, .forward =>
    match findAnchorIdx items id with
    | none => none
    | some i => some (sliceFrom (items.drop (i + 1)) limit)

theorem sliceFrom_gap_hit {pre : List TimelineItem} {limit : Nat}
    (hev : ∀ x ∈ pre, isEv x = true) (hlt : pre.length < limit)
    (t : Chars) (rest : List TimelineItem) :
    sliceFrom (pre ++ .gap t :: rest) limit = .needsBackfill t := by
  induction pre generalizing limit with
  | nil =>
    cases limit with
    | zero => cases hlt
    | succ n => rfl
  | cons x xs ih =>
    cases limit with
    | zero => cases hlt
    | succ n =>
      cases x with
      | gap g => exact absurd (hev _ (List.mem_cons_self _ _)) (by simp [isEv])
      | ev e =>
        have hxs : ∀ y ∈ xs, isEv y = true := fun y hy => hev y (List.mem_cons_of_mem _ hy)
        have hlt' : xs.length < n := by simpa using Nat.lt_of_succ_lt_succ hlt
        simp only [List.cons_append, sliceFrom, List.append_eq, ih hxs hlt']

theorem sliceFrom_no_gap_within {items : List TimelineItem} :
    ∀ limit, (∀ x ∈ items.take limit, isEv x = true) →
      sliceFrom items limit = .slice (eventsOf (items.take limit))
      ∧ (eventsOf (items.take limit)).length ≤ limit := by
  induction items with
  | nil =>
    intro limit _
    cases limit with
    | zero => exact ⟨rfl, by simp [eventsOf]⟩
    | succ n => exact ⟨rfl, by simp [eventsOf]⟩
  | cons x xs ih =>
    intro limit hev
    cases limit with
    | zero => exact ⟨by cases x <;> rfl, by simp [eventsOf]⟩
    | succ n =>
      cases x with
      | gap g =>
        have hg : TimelineItem.gap g ∈ (TimelineItem.gap g :: xs).take (n + 1) := by
          rw [List.take_succ_cons]
          exact List.mem_cons_self _ _
        exact absurd (hev _ hg) (by simp [isEv])
      | ev e =>
        have hxs : ∀ y ∈ xs.take n, isEv y = true := by
          intro y hy
          refine hev y ?_
          rw [List.take_succ_cons]
          exact List.mem_cons_of_mem _ hy
        obtain ⟨h1, h2⟩ := ih n hxs
        constructor
        · simp only [sliceFrom, h1, List.take_succ_cons, eventsOf, List.filterMap_cons]
        · simpa [eventsOf, List.take_succ_cons, List.filterMap_cons] using h2

/-- The reading order of a slice request: the items visited when walking
from the anchor in the requested direction, oldest-visited first; `none`
when the anchor event is unknown. -/
def walkOf (items : List TimelineItem) (a : Anchor) (dir : Dir) :
    Option (List TimelineItem) :=
  match a, dir with
  | .latest, .backward => some items.reverse
  | .latest, .forward => some []
  | .fromEvent id, .backward =>
    match findAnchorIdx items id with
    | none => none
    | some i => some (items.take i).reverse
  | .fromEvent id, .forward =>
    match findAnchorIdx items id with
    | none => none
    | some i => some (items.drop (i + 1))

/-- `timelineSlice` is exactly the limited walk of the request: for every
anchor and direction it collects from the request's reading order. -/
theorem timelineSlice_eq_walk (items : List TimelineItem) (a : Anchor) (dir : Dir)
    (limit : Nat) :
    timelineSlice items a dir limit
      = (walkOf items a dir).map fun w => sliceFrom w limit := by
  cases a with
  | latest =>
    cases dir with
    | backward => rfl
    | forward =>
      cases limit with
      | zero => rfl
      | succ n => rfl
  | fromEvent id =>
    cases dir with
    | backward =>
      cases h : findAnchorIdx items id with
      | none => simp [timelineSlice, walkOf, h]
      | some i => simp [timelineSlice, walkOf, h]
    | forward =>
      cases h : findAnchorIdx items id with
      | none => simp [timelineSlice, walkOf, h]
      | some i => simp [timelineSlice, walkOf, h]

/-- Claim C6: for every anchor and direction, a `timelineSlice` whose
requested walk would cross a known gap — the walk reaches a gap after
fewer than `limit` events — returns the `NeedsBackfill` signal carrying
that first gap's token, never a silently truncated or empty `slice`; and
when no gap lies within the first `limit` items of the walk it returns
exactly the up-to-`limit` events of the walk from the anchor in the
requested direction. -/
theorem claim_C6_timelineSlice_gap (items : List TimelineItem) (a : Anchor)
    (dir : Dir) (limit : Nat) (walk pre rest : List TimelineItem) (t : Chars)
    (hw : walkOf items a dir = some walk) :
    (walk = pre ++ .gap t :: rest → (∀ x ∈ pre, isEv x = true) →
      pre.length < limit →
      timelineSlice items a dir limit = some (.needsBackfill t))
    ∧ ((∀ x ∈ walk.take limit, isEv x = true) →
      timelineSlice items a dir limit = some (.slice (eventsOf (walk.take limit)))
      ∧ (eventsOf (walk.take limit)).length ≤ limit) := by
  have hts : timelineSlice items a dir limit = some (sliceFrom walk limit) := by
    rw [timelineSlice_eq_walk, hw, Option.map_some']
  constructor
  · intro hdec hev hlt
    subst hdec
    rw [hts, sliceFrom_gap_hit hev hlt t rest]
  · intro hev
    obtain ⟨h1, h2⟩ := sliceFrom_no_gap_within limit hev
    exact ⟨by rw [hts, h1], h2⟩

/-- Witness for C6: a backward slice from an event anchor that crosses a
gap signals `NeedsBackfill` with that gap's token, and a forward slice
from an event anchor in a timeline with a distant (uncrossed) gap returns
the events within the limit. -/
theorem claim_C6_witness :
    timelineSlice [.ev wE1, .gap ['t','k'], .ev wE2, .ev wEvt]
        (.fromEvent wEvt.id) .backward 3 = some (.needsBackfill ['t','k'])
    ∧ timelineSlice [.ev wE1, .ev wE2, .gap ['t','k']]
        (.fromEvent wE1.id) .forward 1 = some (.slice [wE2]) := by
  have h1 := claim_C6_timelineSlice_gap
    [.ev wE1, .gap ['t','k'], .ev wE2, .ev wEvt] (.fromEvent wEvt.id) .backward 3
    [.ev wE2, .gap ['t','k'], .ev wE1] [.ev wE2] [.ev wE1] ['t','k'] (by decide)
  have h2 := claim_C6_timelineSlice_gap
    [.ev wE1, .ev wE2, .gap ['t','k']] (.fromEvent wE1.id) .forward 1
    [.ev wE2, .gap ['t','k']] [] [] [] (by decide)
  refine ⟨h1.1 (by decide) (by decide) (by decide), ?_⟩
  have h3 := (h2.2 (by decide)).1
  simpa [eventsOf] using h3

/-! ### Session store (spec §4.6)

Modelled from the spec: the session store is not part of the source tree
here; `storeInboundSession` and its `SessionConflictError` behaviour are
modelled from the specification's words.  Inbound sessions are keyed by
(sender, device, session ID) and content-addressed by ID. -/

/-- Modelled from the spec: the session-integrity error (spec §7),
surfaced and never auto-resolved. -/
inductive SessionErr
  | sessionConflict
deriving DecidableEq

/-- The inbound session table: (sender, device, session ID) to opaque
blob. -/
abbrev SessionDB := List ((Chars × Chars × Chars) × Bytes)

/-- Modelled from the spec: `storeInboundSession(sender, device, sessionID,
blob)` (spec §4.6) — additive/keyed, never overwrites an existing session
with the same ID; a collision with different content is a
`SessionConflictError`. -/
def storeInboundSession (db : SessionDB) (sender device sessionId : Chars)
    (blob : Bytes) : Except SessionErr SessionDB :=
  match lookupA db (sender, device, sessionId) with
  | none => .ok (insertA db (sender, device, sessionId) blob)
  | some stored => if stored = blob then .ok db else .error .sessionConflict

/-- Claim C7: `storeInboundSession` never overwrites an existing stored
session with the same session ID — storing identical content leaves the
store unchanged, storing different content raises `SessionConflictError`,
and in either case any store it returns still holds the original blob
under that ID. -/
theorem claim_C7_storeInboundSession_no_overwrite (db : SessionDB)
    (sender device sessionId : Chars) (blob stored : Bytes)
    (h : lookupA db (sender, device, sessionId) = some stored) :
    (stored = blob → storeInboundSession db sender device sessionId blob = .ok db)
    ∧ (stored ≠ blob →
        storeInboundSession db sender device sessionId blob = .error .sessionConflict)
    ∧ (∀ db', storeInboundSession db sender device sessionId blob = .ok db' →
        lookupA db' (sender, device, sessionId) = some stored) := by
  refine ⟨?_, ?_, ?_⟩
  · intro heq
    simp [storeInboundSession, h, heq]
  · intro hne
    simp [storeInboundSession, h, hne]
  · intro db' hok
    by_cases heq : stored = blob
    · simp [storeInboundSession, h, heq] at hok
      subst hok
      exact h
    · simp [storeInboundSession, h, heq] at hok

/-- Witness for C7 at a concrete session table. -/
theorem claim_C7_witness :
    storeInboundSession [((['@','a'], ['D'], ['s','1']), [9])] ['@','a'] ['D'] ['s','1'] [7]
      = .error .sessionConflict := by
  have h := claim_C7_storeInboundSession_no_overwrite
    [((['@','a'], ['D'], ['s','1']), [9])] ['@','a'] ['D'] ['s','1'] [7] [9] (by decide)
  exact h.2.1 (by decide)

/-! ### Query layer: user search (spec §4.5)

Modelled from the spec: `searchUsers` is not part of the source tree here
(the widget code only dispatches the lowercased query to it); it is
modelled from the specification's words over the cached display names and
user IDs of the requested scope, as byte strings. -/

/-- A cached user entry of the search scope. -/
structure CachedUser where
  displayName : Bytes
  userId : Bytes
deriving DecidableEq

/-- ASCII lowercasing of one byte. -/
def lowerB (n : Nat) : Nat := if 65 ≤ n ∧ n ≤ 90 then n + 32 else n

/-- ASCII lowercasing of a byte string. -/
def lowerBS (s : Bytes) : Bytes := s.map lowerB

/-- Does `s` start with `q`? -/
def startsW : Bytes → Bytes → Bool
  | _, [] => true
  | [], _ :: _ => false
  | a :: s, b :: q => a = b && startsW s q

/-- Does `s` contain `q` as a contiguous substring? -/
def containsW : Bytes → Bytes → Bool
  | [], q => startsW [] q
  | a :: s, q => startsW (a :: s) q || containsW s q

/-- Case-insensitive exact-prefix match against display name or user ID
(`q` is already lowercased). -/
def userPrefMatch (q : Bytes) (u : CachedUser) : Bool :=
  startsW (lowerBS u.displayName) q || startsW (lowerBS u.userId) q

/-- Case-insensitive substring match against display name or user ID
(`q` is already lowercased). -/
def userSubMatch (q : Bytes) (u : CachedUser) : Bool :=
  containsW (lowerBS u.displayName) q || containsW (lowerBS u.userId) q

/-- Lexicographic (alphabetical) order on byte strings. -/
def leB : Bytes → Bytes → Bool
  | [], _ => true
  | _ :: _, [] => false
  | a :: s, b :: t => if a < b then true else if b < a then false else leB s t

/-- Alphabetical order on cached users (by display name). -/
def leU (u v : CachedUser) : Bool := leB u.displayName v.displayName

/-- Insert a user into an alphabetically sorted list. -/
def insSorted (u : CachedUser) : List CachedUser → List CachedUser
  | [] => [u]
  | v :: t => if leU u v then u :: v :: t else v :: insSorted u t

/-- Insertion sort by `leU`. -/
def sortUsers : List CachedUser → List CachedUser
  | [] => []
  | u :: t => insSorted u (sortUsers t)

/-- Is the list alphabetically sorted? -/
def sortedB : List CachedUser → Bool
  | [] => true
  | [_] => true
  | u :: v :: t => leU u v && sortedB (v :: t)

/-- Modelled from the spec: `searchUsers(scope, query)` (spec §4.5) —
case-insensitive substring/prefix match over the scope's cached display
names and IDs; deterministic ordering: exact-prefix matches before
substring-only matches, each group alphabetical. -/
def searchUsers (users : List CachedUser) (q : Bytes) : List CachedUser :=
  sortUsers (users.filter fun u => userPrefMatch (lowerBS q) u)
    ++ sortUsers (users.filter
        fun u => userSubMatch (lowerBS q) u && !userPrefMatch (lowerBS q) u)

theorem lowerB_idem (n : Nat) : lowerB (lowerB n) = lowerB n := by
  by_cases h : 65 ≤ n ∧ n ≤ 90
  · have h1 : lowerB n = n + 32 := by simp [lowerB, h]
    rw [h1]
    simp only [lowerB]
    rw [if_neg (by omega)]
  · have h1 : lowerB n = n := by simp [lowerB, h]
    rw [h1, h1]

theorem lowerBS_idem (s : Bytes) : lowerBS (lowerBS s) = lowerBS s := by
  induction s with
  | nil => rfl
  | cons a t ih =>
    simp only [lowerBS, List.map_cons] at *
    rw [lowerB_idem, ih]

theorem leB_total (s t : Bytes) : leB s t = true ∨ leB t s = true := by
  induction s generalizing t with
  | nil => exact Or.inl rfl
  | cons a s' ih =>
    cases t with
    | nil => exact Or.inr rfl
    | cons b t' =>
      by_cases hab : a < b
      · exact Or.inl (by simp [leB, hab])
      · by_cases hba : b < a
        · exact Or.inr (by simp [leB, hba])
        · rcases ih t' with h | h
          · exact Or.inl (by simp [leB, hab, hba, h])
          · exact Or.inr (by simp [leB, hab, hba, h])

theorem leU_false {u v : CachedUser} (h : leU u v = false) : leU v u = true := by
  rcases leB_total u.displayName v.displayName with h1 | h1
  · rw [leU] at h
    rw [h] at h1
    cases h1
  · exact h1

theorem sortedB_insSorted (u : CachedUser) (l : List CachedUser)
    (h : sortedB l = true) : sortedB (insSorted u l) = true := by
  induction l with
  | nil => rfl
  | cons v t ih =>
    by_cases hle : leU u v
    · simp [insSorted, hle, sortedB, h]
    · have hvu : leU v u = true := leU_false (by simpa using hle)
      cases t with
      | nil => simp [insSorted, hle, sortedB, hvu]
      | cons w t' =>
        have hparts := h
        simp only [sortedB, Bool.and_eq_true] at hparts
        by_cases huw : leU u w
        · simp [insSorted, hle, huw, sortedB, hvu, hparts.1, hparts.2]
        · have hrec := ih hparts.2
          have hins : insSorted u (w :: t') = w :: insSorted u t' := by
            simp [insSorted, huw]
          rw [hins] at hrec
          simp [insSorted, hle, huw, sortedB, hvu, hparts.1, hrec]

theorem sortUsers_sorted (l : List CachedUser) : sortedB (sortUsers l) = true := by
  induction l with
  | nil => rfl
  | cons u t ih => exact sortedB_insSorted u _ ih

theorem mem_insSorted (u : CachedUser) (l : List CachedUser) (v : CachedUser) :
    v ∈ insSorted u l ↔ v = u ∨ v ∈ l := by
  induction l with
  | nil => simp [insSorted]
  | cons w t ih =>
    by_cases hle : leU u w
    · simp [insSorted, hle]
    · have hins : insSorted u (w :: t) = w :: insSorted u t := by
        simp [insSorted, hle]
      rw [hins]
      simp only [List.mem_cons, ih]
      tauto

theorem mem_sortUsers (l : List CachedUser) (v : CachedUser) :
    v ∈ sortUsers l ↔ v ∈ l := by
  induction l with
  | nil => exact Iff.rfl
  | cons u t ih => simp [sortUsers, mem_insSorted, ih]

/-- Claim C8: `searchUsers` matches the query case-insensitively (substring
or prefix over cached display names and user IDs) and returns a
deterministic order — all exact-prefix matches before all substring-only
matches, each group alphabetically sorted — and in particular
`searchUsers(scope, query) = searchUsers(scope, lowercase(query))` for
every query. -/
theorem claim_C8_searchUsers_case_insensitive (users : List CachedUser) (q : Bytes) :
    searchUsers users q = searchUsers users (lowerBS q)
    ∧ (searchUsers users q).all
        (fun u => userPrefMatch (lowerBS q) u || userSubMatch (lowerBS q) u) = true
    ∧ sortedB (sortUsers (users.filter fun u => userPrefMatch (lowerBS q) u)) = true
    ∧ sortedB (sortUsers (users.filter
        fun u => userSubMatch (lowerBS q) u && !userPrefMatch (lowerBS q) u)) = true := by
  refine ⟨?_, ?_, sortUsers_sorted _, sortUsers_sorted _⟩
  · unfold searchUsers
    rw [lowerBS_idem]
  · rw [List.all_eq_true]
    intro u hu
    unfold searchUsers at hu
    rcases List.mem_append.mp hu with h | h
    · have hm := List.mem_filter.mp ((mem_sortUsers _ _).mp h)
      simp [hm.2]
    · have hm := List.mem_filter.mp ((mem_sortUsers _ _).mp h)
      have h2 := hm.2
      simp only [Bool.and_eq_true] at h2
      simp [h2.1]

/-! ### Text-input widget: submit history (FilteredTextEdit::submit)

Embedded from the source (`TextInputWidget.cpp` body inside the repository
snapshot): `INPUT_HISTORY_SIZE = 127`; `submit()` returns on blank input,
pops the back of `true_history_` when it holds exactly
`INPUT_HISTORY_SIZE` entries, pushes the submitted text at the front,
rebuilds `working_history_` as the true history with one empty entry
prepended, and resets `history_index_` to 0. -/

/-- `INPUT_HISTORY_SIZE` from the source. -/
def INPUT_HISTORY_SIZE : Nat := 127

/-- Whitespace as removed by `QString::trimmed`. -/
def isSpaceC (c : Char) : Bool := c = ' ' || c = '\t' || c = '\n' || c = '\r'

/-- `toPlainText().trimmed().isEmpty()`: every character is whitespace. -/
def isBlank (s : Chars) : Bool := s.all isSpaceC

/-- The history state of `FilteredTextEdit`. -/
structure InputState where
  true_history : List Chars
  working_history : List Chars
  history_index : Nat
deriving DecidableEq

/-- The constructor state: empty persistent history, one empty working
entry, index 0. -/
def initInput : InputState :=
  { true_history := [], working_history := [[]], history_index := 0 }

/-- The history bookkeeping performed by `FilteredTextEdit::submit` on the
current text. -/
def submitHist (st : InputState) (text : Chars) : InputState :=
  if isBlank text then st
  else
    let th0 := if st.true_history.length = INPUT_HISTORY_SIZE
      then st.true_history.dropLast else st.true_history
    { true_history := text :: th0
      working_history := [] :: (text :: th0)
      history_index := 0 }

/-- The invariant maintained by `submit`: bounded persistent history,
working history = empty entry followed by the persistent history, index
reset to 0. -/
def InvP (st : InputState) : Prop :=
  st.true_history.length ≤ INPUT_HISTORY_SIZE
  ∧ st.working_history = [] :: st.true_history
  ∧ st.history_index = 0

theorem invP_submitHist {st : InputState} (h : InvP st) (t : Chars) :
    InvP (submitHist st t) := by
  by_cases hb : isBlank t
  · simpa [submitHist, hb] using h
  · obtain ⟨h1, _, _⟩ := h
    by_cases hf : st.true_history.length = INPUT_HISTORY_SIZE
    · refine ⟨?_, by simp [submitHist, hb, hf], by simp [submitHist, hb, hf]⟩
      have hth : (submitHist st t).true_history = t :: st.true_history.dropLast := by
        simp [submitHist, hb, hf]
      rw [hth]
      simp only [List.length_cons, List.length_dropLast]
      simp only [INPUT_HISTORY_SIZE] at hf ⊢
      omega
    · refine ⟨?_, by simp [submitHist, hb, hf], by simp [submitHist, hb, hf]⟩
      have hth : (submitHist st t).true_history = t :: st.true_history := by
        simp [submitHist, hb, hf]
      rw [hth]
      simp only [List.length_cons]
      simp only [INPUT_HISTORY_SIZE] at h1 hf ⊢
      omega

theorem invP_foldl (texts : List Chars) :
    ∀ st, InvP st → InvP (texts.foldl submitHist st) := by
  induction texts with
  | nil => exact fun st h => h
  | cons t ts ih => exact fun st h => ih _ (invP_submitHist h t)

theorem invP_init : InvP initInput :=
  ⟨by simp [initInput, INPUT_HISTORY_SIZE], rfl, rfl⟩

/-- Claim C9: over any sequence of `submit` calls from the initial widget
state, the persistent history never exceeds 127 entries, the working
history is always the persistent history with one empty entry prepended
and the index is 0; and a submit on a full (127-entry) history with
non-blank text evicts the oldest (back) entry before prepending the new
text at the front, keeping the size at 127. -/
theorem claim_C9_input_history_bounded (texts : List Chars) (s : InputState)
    (t : Chars) :
    (texts.foldl submitHist initInput).true_history.length ≤ INPUT_HISTORY_SIZE
    ∧ (texts.foldl submitHist initInput).working_history
        = [] :: (texts.foldl submitHist initInput).true_history
    ∧ (texts.foldl submitHist initInput).history_index = 0
    ∧ (s.true_history.length = INPUT_HISTORY_SIZE → isBlank t = false →
        (submitHist s t).true_history = t :: s.true_history.dropLast
        ∧ (submitHist s t).true_history.length = INPUT_HISTORY_SIZE) := by
  have hinv := invP_foldl texts initInput invP_init
  refine ⟨hinv.1, hinv.2.1, hinv.2.2, fun hf hb => ?_⟩
  have hth : (submitHist s t).true_history = t :: s.true_history.dropLast := by
    simp [submitHist, hb, hf]
  refine ⟨hth, ?_⟩
  rw [hth]
  simp only [List.length_cons, List.length_dropLast]
  simp only [INPUT_HISTORY_SIZE] at hf ⊢
  omega

/-- A full 127-entry history state for the C9 witness. -/
def wFull : InputState :=
  { true_history := List.replicate 127 ['a'],
    working_history := [] :: List.replicate 127 ['a'],
    history_index := 0 }

/-- Witness for C9 at a concrete submit sequence and a concrete full
state. -/
theorem claim_C9_witness :
    ([['h','i']].foldl submitHist initInput).true_history.length ≤ INPUT_HISTORY_SIZE
    ∧ (submitHist wFull ['h','i']).true_history
        = ['h','i'] :: wFull.true_history.dropLast := by
  have h := claim_C9_input_history_bounded [['h','i']] wFull ['h','i']
  exact ⟨h.1, (h.2.2.2 (by simp [wFull, INPUT_HISTORY_SIZE]) (by decide)).1⟩

/-! ### Text-input widget: slash-command dispatch

Embedded from the source: `FilteredTextEdit::submit` splits text starting
with '/' at the first space (`indexOf(' ')`, or the end when absent) into
`name = text.mid(1, command_end - 1)` and `args = text.mid(command_end +
1)`; an empty name or the name "/" sends `args` as an ordinary message,
otherwise `TextInputWidget::command(name, args)` runs — an if-chain over
the recognised commands with no else branch, so an unrecognised name does
nothing. -/

/-- The externally visible action a submit produces. -/
inductive SubmitAction
  | message (args : Chars)
  | emote (args : Chars)
  | joinRoom (arg : Chars)
  | invite (user reason : Chars)
  | kick (user reason : Chars)
  | ban (user reason : Chars)
  | unban (user reason : Chars)
  | clearCache
  | noAction
deriving DecidableEq

/-- `QString::section(' ', 0, 0)`: the text before the first space. -/
def sect0 (s : Chars) : Chars := s.takeWhile fun c => c ≠ ' '

/-- `QString::section(' ', 1, -1)`: the text after the first space. -/
def sectRest (s : Chars) : Chars := (s.dropWhile fun c => c ≠ ' ').drop 1

/-- `command_end`: index of the first space, or the text length when there
is none (`indexOf` returns -1). -/
def cmdEnd (text : Chars) : Nat :=
  (text.findIdx? fun c => c = ' ').getD text.length

/-- `name = text.mid(1, command_end - 1)`. -/
def cmdName (text : Chars) : Chars := (text.drop 1).take (cmdEnd text - 1)

/-- `args = text.mid(command_end + 1)`. -/
def cmdArgs (text : Chars) : Chars := text.drop (cmdEnd text + 1)

/-- `TextInputWidget::command`: the if-chain over recognised command
names; anything else falls through and does nothing. -/
def commandAction (name args : Chars) : SubmitAction :=
  if name = "me".toList then .emote args
  else if name = "join".toList then .joinRoom args
  else if name = "invite".toList then .invite (sect0 args) (sectRest args)
  else if name = "kick".toList then .kick (sect0 args) (sectRest args)
  else if name = "ban".toList then .ban (sect0 args) (sectRest args)
  else if name = "unban".toList then .unban (sect0 args) (sectRest args)
  else if name = "shrug".toList then .message "¯\\_(ツ)_/¯".toList
  else if name = "fliptable".toList then .message "(╯°□°)╯︵ ┻━┻".toList
  else if name = "unfliptable".toList then .message " ┯━┯╭( º _ º╭)".toList
  else if name = "sovietflip".toList then .message "ノ┬─┬ノ ︵ ( \\o°o)\\".toList
  else if name = "clearcache".toList then .clearCache
  else .noAction

/-- The dispatch performed by `FilteredTextEdit::submit` on the submitted
text. -/
def submitDispatch (text : Chars) : SubmitAction :=
  if text.head? = some '/' then
    if cmdName text = [] ∨ cmdName text = ['/'] then .message (cmdArgs text)
    else commandAction (cmdName text) (cmdArgs text)
  else .message text

/-- The command names recognised by `TextInputWidget::command`. -/
def recognizedNames : List Chars :=
  ["me", "join", "invite", "kick", "ban", "unban", "shrug", "fliptable",
    "unfliptable", "sovietflip", "clearcache"].map String.toList

/-- Claim C10: for every submitted text starting with '/', submit splits
at the first space into name and args; an empty name or the name "/"
sends the args as an ordinary message; each recognised name triggers
exactly its mapped action; and an unrecognised name produces no message
and no action at all. -/
theorem claim_C10_slash_command_dispatch (text : Chars)
    (h : text.head? = some '/') :
    (cmdName text = [] ∨ cmdName text = ['/'] →
      submitDispatch text = .message (cmdArgs text))
    ∧ (cmdName text = "me".toList → submitDispatch text = .emote (cmdArgs text))
    ∧ (cmdName text = "join".toList → submitDispatch text = .joinRoom (cmdArgs text))
    ∧ (cmdName text = "invite".toList →
        submitDispatch text = .invite (sect0 (cmdArgs text)) (sectRest (cmdArgs text)))
    ∧ (cmdName text = "kick".toList →
        submitDispatch text = .kick (sect0 (cmdArgs text)) (sectRest (cmdArgs text)))
    ∧ (cmdName text = "ban".toList →
        submitDispatch text = .ban (sect0 (cmdArgs text)) (sectRest (cmdArgs text)))
    ∧ (cmdName text = "unban".toList →
        submitDispatch text = .unban (sect0 (cmdArgs text)) (sectRest (cmdArgs text)))
    ∧ (cmdName text = "shrug".toList →
        submitDispatch text = .message "¯\\_(ツ)_/¯".toList)
    ∧ (cmdName text = "fliptable".toList →
        submitDispatch text = .message "(╯°□°)╯︵ ┻━┻".toList)
    ∧ (cmdName text = "unfliptable".toList →
        submitDispatch text = .message " ┯━┯╭( º _ º╭)".toList)
    ∧ (cmdName text = "sovietflip".toList →
        submitDispatch text = .message "ノ┬─┬ノ ︵ ( \\o°o)\\".toList)
    ∧ (cmdName text = "clearcache".toList → submitDispatch text = .clearCache)
    ∧ (cmdName text ∉ recognizedNames → cmdName text ≠ [] → cmdName text ≠ ['/'] →
        submitDispatch text = .noAction) := by
  refine ⟨fun hn => by simp [submitDispatch, h, hn],
    fun hn => by simp +decide [submitDispatch, h, hn, commandAction],
    fun hn => by simp +decide [submitDispatch, h, hn, commandAction],
    fun hn => by simp +decide [submitDispatch, h, hn, commandAction],
    fun hn => by simp +decide [submitDispatch, h, hn, commandAction],
    fun hn => by simp +decide [submitDispatch, h, hn, commandAction],
    fun hn => by simp +decide [submitDispatch, h, hn, commandAction],
    fun hn => by simp +decide [submitDispatch, h, hn, commandAction],
    fun hn => by simp +decide [submitDispatch, h, hn, commandAction],
    fun hn => by simp +decide [submitDispatch, h, hn, commandAction],
    fun hn => by simp +decide [submitDispatch, h, hn, commandAction],
    fun hn => by simp +decide [submitDispatch, h, hn, commandAction],
    fun hnot hne1 hne2 => ?_⟩
  simp only [recognizedNames, List.map_cons, List.map_nil, List.mem_cons,
    List.not_mem_nil, or_false, not_or] at hnot
  obtain ⟨n1, n2, n3, n4, n5, n6, n7, n8, n9, n10, n11⟩ := hnot
  simp at n1 n2 n3 n4 n5 n6 n7 n8 n9 n10 n11
  simp [submitDispatch, h, commandAction, hne1, hne2,
    n1, n2, n3, n4, n5, n6, n7, n8, n9, n10, n11]

/-- Witness for C10 at the concrete input "/shrug". -/
theorem claim_C10_witness :
    submitDispatch "/shrug".toList = .message "¯\\_(ツ)_/¯".toList := by
  have h := claim_C10_slash_command_dispatch "/shrug".toList (by decide)
  exact h.2.2.2.2.2.2.2.1 (by decide)
